import Mathlib

/-!
# Verification of the meeting-scheduler core (src/meeting_scheduler_v06.py)

Shallow embedding of the scheduler's data model and algorithms:

* Calendar model: a date is a `Nat`, counted in days from an epoch that falls on
  a Monday, so Python's `date.weekday()` is `today % 7`.  A naive datetime is a
  `Nat`, counted in minutes: `date * 1440 + hour * 60 + minute`.
* A pytz timezone is abstracted to its UTC-offset function (minutes, `Int → Int`):
  `tz.localize(dt)` attaches the offset at the naive local time `dt` (pytz's
  default `is_dst=False` policy never raises), and `astimezone` applies the
  target's offset at the resulting UTC instant.
* Python's `datetime.time(hour=h, minute=m)` raises `ValueError` for `h ≥ 24`;
  a fallible construction is an `Option`, and an exception propagating out of a
  function makes the function's result `none`.
* The cell-state dictionary `self.cell_states` is a partial map
  `Nat × Nat → Option Bool` (`none` = key absent); `dict.get(key, False)` is
  `dictGet`.
-/

/-- The `self.cell_states` dictionary: partial map from `(day, slot)` keys. -/
abbrev CellMap := Nat × Nat → Option Bool

/-- `self.cell_states.get((day, slot), False)`: lookup with default `False`.
(The direct `self.cell_states[(day, slot)]` accesses in the source occur only
for keys present since `create_time_grid`, where the two coincide.) -/
def dictGet (m : CellMap) (k : Nat × Nat) : Bool := (m k).getD false

/-- `create_time_grid`: `self.cell_states[(day, slot)] = False` for
`day in range(7)`, `slot in range(48)`; every other key is absent. -/
def create_time_grid : CellMap :=
  fun k => if k.1 < 7 ∧ k.2 < 48 then some false else none

/-- `get_week_dates`: `today - timedelta(days=today.weekday())` then the seven
consecutive dates.  With the Monday epoch, `today.weekday() = today % 7`. -/
def get_week_dates (today : Nat) : List Nat :=
  (List.range 7).map (fun i => today - today % 7 + i)

/-- `get_slot_datetime(slot)`: `minutes = slot * 30`, then
`datetime.combine(date.today(), time(hour=minutes // 60, minute=minutes % 60))`.
`datetime.time` raises `ValueError` when `hour ≥ 24` (hence `none`); the minute
component `minutes % 60` is always `< 60`.  The result is naive minutes. -/
def get_slot_datetime (today : Nat) (slot : Nat) : Option Nat :=
  let minutes := slot * 30
  if minutes / 60 < 24 then
    some (today * 1440 + (minutes / 60) * 60 + minutes % 60)
  else none

/-- `local_tz.localize(naive).astimezone(target_tz)`, as naive minutes in the
target timezone: localize attaches the source offset at the naive local time,
`astimezone` applies the target offset at the resulting UTC instant. -/
def tzConvert (localOff targetOff : Int → Int) (naive : Int) : Int :=
  let utc := naive - localOff naive
  utc + targetOff utc

/-- Minute-of-day of a (possibly negative) minute timestamp. -/
def minuteOfDay (t : Int) : Nat := (t.emod 1440).toNat

/-- `datetime.hour` of a minute timestamp. -/
def hourOf (t : Int) : Nat := minuteOfDay t / 60

/-- Zero-padded two-digit rendering (`"%02d"`; all values used are < 100). -/
def pad2 (n : Nat) : String := if n < 10 then "0" ++ toString n else toString n

/-- `strftime("%H:%M")` of a minute timestamp. -/
def timeHM (t : Int) : String := pad2 (hourOf t) ++ ":" ++ pad2 (minuteOfDay t % 60)

/-- The group-merging loop body of `update_meeting_proposal`
(`start_slot`/`prev_slot` accumulation over the remaining sorted slots). -/
def mergeRunsAux (start prev : Nat) : List Nat → List (Nat × Nat)
  | [] => [(start, prev)]
  | s :: rest =>
    if s = prev + 1 then mergeRunsAux start s rest
    else (start, prev) :: mergeRunsAux s s rest

/-- The `groups` computed by `update_meeting_proposal` from a day's sorted
selected-slot list: maximal consecutive runs `(start_slot, prev_slot)`. -/
def mergeRuns : List Nat → List (Nat × Nat)
  | [] => []
  | s :: rest => mergeRunsAux s s rest

/-- `sorted([slot for slot in range(self.total_slots) if
self.cell_states.get((day, slot), False)])`; the comprehension over `range(48)`
is already ascending, so `sorted` is the identity on it. -/
def selectedSlots (states : CellMap) (day : Nat) : List Nat :=
  (List.range 48).filter (fun slot => dictGet states (day, slot))

/-- Exception-propagating traversal: apply `f` to each element in order; the
first `none` (raised exception) aborts the whole computation. -/
def optMap (f : α → Option β) : List α → Option (List β)
  | [] => some []
  | a :: l =>
    match f a with
    | none => none
    | some b =>
      match optMap f l with
      | none => none
      | some bs => some (b :: bs)

/-- One emitted time range of the proposal: the run `(startSlot, endSlot)`, the
naive datetimes handed to `localize` (start slot, and end slot + 1), and the
rendered `"%H:%M - %H:%M"` string in the target timezone. -/
structure RangeOut where
  startSlot : Nat
  endSlot : Nat
  startNaive : Nat
  endNaive : Nat
  rangeStr : String
deriving Repr, DecidableEq

/-- One `"* <day>: <ranges>"` line of the proposal: the day index, the calendar
date `self.week_dates[day]` used for the `strftime("%A, %b %d")` label, and the
day's ranges. -/
structure DayLine where
  day : Nat
  dayDate : Nat
  ranges : List RangeOut
deriving Repr, DecidableEq

/-- The structured content of the proposal text assembled by
`update_meeting_proposal` (header, per-day lines, the `"No times selected
yet."` case, closing line). -/
structure Proposal where
  duration : String
  targetDisp : String
  dayLines : List DayLine
  noTimes : Bool
deriving Repr, DecidableEq

/-- The per-group body of `update_meeting_proposal`'s range loop:
`start_time = get_slot_datetime(start_s)`, `end_time = get_slot_datetime(end_s + 1)`
(either may raise `ValueError`), then localize both in the source timezone,
convert to the target timezone and format `"%H:%M - %H:%M"`. -/
def makeRange (localOff targetOff : Int → Int) (today : Nat) (g : Nat × Nat) :
    Option RangeOut :=
  match get_slot_datetime today g.1 with
  | none => none
  | some startNaive =>
    match get_slot_datetime today (g.2 + 1) with
    | none => none
    | some endNaive =>
      let startTarget := tzConvert localOff targetOff (startNaive : Int)
      let endTarget := tzConvert localOff targetOff (endNaive : Int)
      some { startSlot := g.1, endSlot := g.2, startNaive := startNaive,
             endNaive := endNaive,
             rangeStr := timeHM startTarget ++ " - " ++ timeHM endTarget }

/-- The `for day in range(7)` loop of `update_meeting_proposal`, over the
remaining day indices: days with an empty selection emit nothing; otherwise the
day's groups are merged and converted (an exception aborts everything), and the
line carries `self.week_dates[day] = (today - today % 7) + day`. -/
def dayLinesFrom (states : CellMap) (localOff targetOff : Int → Int)
    (today : Nat) : List Nat → Option (List DayLine)
  | [] => some []
  | day :: rest =>
    let sel := selectedSlots states day
    if sel.isEmpty then dayLinesFrom states localOff targetOff today rest
    else
      match optMap (makeRange localOff targetOff today) (mergeRuns sel) with
      | none => none
      | some ranges =>
        match dayLinesFrom states localOff targetOff today rest with
        | none => none
        | some tail =>
          some ({ day := day, dayDate := today - today % 7 + day,
                  ranges := ranges } :: tail)

/-- `update_meeting_proposal`, as its structured content: `none` models a
propagated exception (the method has no `try`/`except`). -/
def update_meeting_proposal (states : CellMap) (localOff targetOff : Int → Int)
    (today : Nat) (duration targetDisp : String) : Option Proposal :=
  match dayLinesFrom states localOff targetOff today (List.range 7) with
  | none => none
  | some ls =>
    some { duration := duration, targetDisp := targetDisp, dayLines := ls,
           noTimes := ls.isEmpty }

/-- `set_cell_state(day, slot, state)`: `self.cell_states[(day, slot)] = state`
(dictionary insert; the `update_cell_appearance` call is rendering only). -/
def set_cell_state (states : CellMap) (day slot : Nat) (state : Bool) : CellMap :=
  fun k => if k = (day, slot) then some state else states k

/-- `update_selection(start, end)`: flatten both cells to global ordinals
(`day * 48 + slot`, `self.total_slots = 48`), collect every `(ordinal // 48,
ordinal % 48)` for ordinals from `min` to `max` inclusive, and write
`self.selection_mode` to each. -/
def update_selection (states : CellMap) (start stop : Nat × Nat)
    (mode : Bool) : CellMap :=
  let startOrdinal := start.1 * 48 + start.2
  let endOrdinal := stop.1 * 48 + stop.2
  let minOrdinal := min startOrdinal endOrdinal
  let maxOrdinal := max startOrdinal endOrdinal
  let updates := (List.range' minOrdinal (maxOrdinal + 1 - minOrdinal)).map
    (fun o => (o / 48, o % 48))
  updates.foldl (fun st p => set_cell_state st p.1 p.2 mode) states

/-- The scheduler's interaction state: `self.cell_states` plus the transient
drag fields of `MeetingScheduler.__init__`. -/
structure SchedState where
  cell_states : CellMap
  dragging : Bool
  start_cell : Option (Nat × Nat)
  last_cell : Option (Nat × Nat)
  selection_mode : Bool

/-- The interaction state right after `__init__`/`create_time_grid`. -/
def initState : SchedState :=
  { cell_states := create_time_grid, dragging := false, start_cell := none,
    last_cell := none, selection_mode := false }

/-- `on_cell_click(event)` for a click on grid cell `(day, slot)`:
`selection_mode = not cell_states[(day, slot)]`, anchor the drag at the cell,
and paint the cell. -/
def on_cell_click (st : SchedState) (cell : Nat × Nat) : SchedState :=
  let mode := !(dictGet st.cell_states cell)
  { cell_states := set_cell_state st.cell_states cell.1 cell.2 mode,
    dragging := true, start_cell := some cell, last_cell := some cell,
    selection_mode := mode }

/-- `on_drag(event)`: `cellUnder` is the grid cell under the pointer, if the
pointer is over a widget carrying `day`/`slot` attributes (otherwise `none`).
No-op unless dragging with an anchor and the pointer moved to a new cell;
otherwise paint the ordinal range from the anchor and update `last_cell`. -/
def on_drag (st : SchedState) (cellUnder : Option (Nat × Nat)) : SchedState :=
  if !st.dragging then st
  else
    match st.start_cell with
    | none => st
    | some anchor =>
      match cellUnder with
      | none => st
      | some current =>
        if st.last_cell = some current then st
        else
          { st with
            cell_states :=
              update_selection st.cell_states anchor current st.selection_mode,
            last_cell := some current }

/-- `on_release(event)`: finalize the drag (proposal regeneration aside). -/
def on_release (st : SchedState) : SchedState :=
  if st.dragging then
    { st with dragging := false, start_cell := none, last_cell := none }
  else st

/-- `on_cell_right_click(event)`: unconditionally clear the clicked cell. -/
def on_cell_right_click (st : SchedState) (cell : Nat × Nat) : SchedState :=
  { st with cell_states := set_cell_state st.cell_states cell.1 cell.2 false }

/-- The display-label resolution
`next((tz for disp, tz in self.timezone_list if disp == label), "Etc/UTC")`
used by `update_time_labels`, `is_business_hours` and
`update_meeting_proposal`. -/
def resolve_tz (tzList : List (String × String)) (label : String) : String :=
  match tzList.find? (fun p => p.1 == label) with
  | some p => p.2
  | none => "Etc/UTC"

/-- `is_business_hours(slot)` with both timezones already resolved: localize
`get_slot_datetime(slot)` in the local timezone, convert to the target
timezone, and test `8 <= target_dt.hour < 18`.  (`none` would model the
`ValueError` for `slot ≥ 48`; all call sites pass `slot in range(48)`.) -/
def is_business_hours (localOff targetOff : Int → Int) (today slot : Nat) :
    Option Bool :=
  (get_slot_datetime today slot).map (fun naive : Nat =>
    let target := tzConvert localOff targetOff (naive : Int)
    decide (8 ≤ hourOf target ∧ hourOf target < 18))

/-- The fixed `us_timezones` list of `get_timezones`. -/
def us_timezones : List String :=
  ["America/Los_Angeles", "America/Denver", "America/Chicago",
   "America/New_York", "America/Anchorage", "Pacific/Honolulu"]

/-- The curated-label chain of `get_timezones` for the fixed US list.  (The
source tests substring membership, e.g. `'Los_Angeles' in tz_name`; on the six
members of `us_timezones` — the only inputs reaching this branch — each
substring test holds exactly for the one corresponding name, so the chain
coincides with these equality tests, with the `Honolulu` arm last.) -/
def usLabel (tz : String) : String :=
  if tz = "America/Los_Angeles" then "US Pacific Time"
  else if tz = "America/Denver" then "US Mountain Time"
  else if tz = "America/Chicago" then "US Central Time"
  else if tz = "America/New_York" then "US Eastern Time"
  else if tz = "America/Anchorage" then "US Alaska Time"
  else "US Hawaii Time"

/-- The label and `(UTC±HH:MM) <name>` display string built by `get_timezones`
for one timezone name with UTC offset `off` (total minutes, may be negative):
`sign = '+' if total_minutes >= 0 else '-'`,
`hours, minutes = divmod(abs(total_minutes), 60)`. -/
def tzDisplayName (name : String) (off : Int) : String :=
  let label :=
    if name ∈ us_timezones then usLabel name
    else ((name.splitOn "/").getLastD name).replace "_" " "
  "(UTC" ++ (if 0 ≤ off then "+" else "-") ++ pad2 (off.natAbs / 60) ++ ":"
    ++ pad2 (off.natAbs % 60) ++ ") " ++ label

/-- The unsorted `tz_list` of `(offset, display_name, tz_name)` triples built
by `get_timezones`.  The input models the snapshot of offset lookups: `none`
means the timezone/offset lookup raised and the `except: continue` skips the
entry. -/
def tz_entries (input : List (String × Option Int)) :
    List (Int × String × String) :=
  input.filterMap (fun p =>
    match p.2 with
    | none => none
    | some off => some (off, tzDisplayName p.1 off, p.1))

/-- The sort key order of `tz_list.sort(key=lambda x: (x[0], x[2]))`: UTC
offset ascending, ties broken by canonical timezone name ascending. -/
def tzKeyLe (a b : Int × String × String) : Prop :=
  a.1 < b.1 ∨ (a.1 = b.1 ∧ a.2.2 ≤ b.2.2)

instance : DecidableRel tzKeyLe := fun a b => by
  unfold tzKeyLe; infer_instance

instance : IsTotal (Int × String × String) tzKeyLe where
  total a b := by
    rcases lt_trichotomy a.1 b.1 with h | h | h
    · exact Or.inl (Or.inl h)
    · rcases le_total a.2.2 b.2.2 with h2 | h2
      · exact Or.inl (Or.inr ⟨h, h2⟩)
      · exact Or.inr (Or.inr ⟨h.symm, h2⟩)
    · exact Or.inr (Or.inl h)

instance : IsTrans (Int × String × String) tzKeyLe where
  trans a b c hab hbc := by
    rcases hab with h1 | ⟨e1, s1⟩
    · rcases hbc with h2 | ⟨e2, _⟩
      · exact Or.inl (h1.trans h2)
      · exact Or.inl (e2 ▸ h1)
    · rcases hbc with h2 | ⟨e2, s2⟩
      · exact Or.inl (e1 ▸ h2)
      · exact Or.inr ⟨e1.trans e2, s1.trans s2⟩

/-- The sorted `tz_list` (Python's stable sort on the key `(x[0], x[2])`;
`insertionSort` is likewise a stable sort of `tzKeyLe`). -/
def sorted_tz_entries (input : List (String × Option Int)) :
    List (Int × String × String) :=
  (tz_entries input).insertionSort tzKeyLe

/-- `get_timezones`, over the offset-lookup snapshot: build, sort, and return
the `(display_name, tz_name)` pairs. -/
def get_timezones (input : List (String × Option Int)) :
    List (String × String) :=
  (sorted_tz_entries input).map (fun e => (e.2.1, e.2.2))

/-! ## Properties of the run-merging loop -/

theorem mergeRunsAux_cover (l : List Nat) : ∀ start prev : Nat, start ≤ prev →
    List.Chain (· < ·) prev l → ∀ s : Nat,
    ((∃ p ∈ mergeRunsAux start prev l, p.1 ≤ s ∧ s ≤ p.2) ↔
      (start ≤ s ∧ s ≤ prev) ∨ s ∈ l) := by
  induction l with
  | nil =>
    intro start prev _ _ s
    simp [mergeRunsAux]
  | cons a rest ih =>
    intro start prev hsp hch s
    rw [List.chain_cons] at hch
    obtain ⟨hpa, hch'⟩ := hch
    by_cases heq : a = prev + 1
    · rw [mergeRunsAux, if_pos heq]
      rw [ih start a (by omega) hch' s]
      subst heq
      simp only [List.mem_cons]
      constructor
      · rintro (⟨h1, h2⟩ | h)
        · rcases Nat.lt_or_ge s (prev + 1) with h3 | h3
          · exact Or.inl ⟨h1, by omega⟩
          · exact Or.inr (Or.inl (by omega))
        · exact Or.inr (Or.inr h)
      · rintro (⟨h1, h2⟩ | h | h)
        · exact Or.inl ⟨h1, by omega⟩
        · exact Or.inl ⟨by omega, by omega⟩
        · exact Or.inr h
    · rw [mergeRunsAux, if_neg heq]
      have hrec := ih a a le_rfl hch' s
      simp only [List.mem_cons]
      constructor
      · rintro ⟨p, hp, hps⟩
        rcases hp with rfl | hp'
        · exact Or.inl hps
        · rcases hrec.mp ⟨p, hp', hps⟩ with ⟨h1, h2⟩ | h
          · exact Or.inr (Or.inl (by omega))
          · exact Or.inr (Or.inr h)
      · rintro (h | rfl | h)
        · exact ⟨(start, prev), Or.inl rfl, h⟩
        · obtain ⟨p, hp, hps⟩ := hrec.mpr (Or.inl ⟨le_rfl, le_rfl⟩)
          exact ⟨p, Or.inr hp, hps⟩
        · obtain ⟨p, hp, hps⟩ := hrec.mpr (Or.inr h)
          exact ⟨p, Or.inr hp, hps⟩

theorem mergeRunsAux_struct (l : List Nat) : ∀ start prev : Nat, start ≤ prev →
    List.Chain (· < ·) prev l →
    (∀ p ∈ mergeRunsAux start prev l, start ≤ p.1 ∧ p.1 ≤ p.2) ∧
    List.Pairwise (fun p q : Nat × Nat => p.2 + 1 < q.1)
      (mergeRunsAux start prev l) := by
  induction l with
  | nil =>
    intro start prev hsp _
    refine ⟨?_, ?_⟩
    · intro p hp
      rcases List.mem_cons.mp hp with rfl | h
      · exact ⟨le_rfl, hsp⟩
      · exact absurd h (List.not_mem_nil p)
    · exact List.pairwise_singleton _ _
  | cons a rest ih =>
    intro start prev hsp hch
    rw [List.chain_cons] at hch
    obtain ⟨hpa, hch'⟩ := hch
    by_cases heq : a = prev + 1
    · rw [mergeRunsAux, if_pos heq]
      exact ih start a (by omega) hch'
    · rw [mergeRunsAux, if_neg heq]
      obtain ⟨h1, h2⟩ := ih a a le_rfl hch'
      refine ⟨?_, ?_⟩
      · intro p hp
        rcases List.mem_cons.mp hp with rfl | hp'
        · exact ⟨le_rfl, hsp⟩
        · obtain ⟨ha1, ha2⟩ := h1 p hp'
          exact ⟨by omega, ha2⟩
      · refine List.pairwise_cons.mpr ⟨?_, h2⟩
        intro q hq
        obtain ⟨ha1, _⟩ := h1 q hq
        omega

theorem mergeRuns_cover {l : List Nat} (hl : List.Pairwise (· < ·) l)
    (s : Nat) : (∃ p ∈ mergeRuns l, p.1 ≤ s ∧ s ≤ p.2) ↔ s ∈ l := by
  cases l with
  | nil => simp [mergeRuns]
  | cons a rest =>
    have hch : List.Chain (· < ·) a rest := List.chain_iff_pairwise.mpr hl
    rw [mergeRuns, mergeRunsAux_cover rest a a le_rfl hch s]
    simp only [List.mem_cons]
    constructor
    · rintro (⟨h1, h2⟩ | h)
      · exact Or.inl (by omega)
      · exact Or.inr h
    · rintro (rfl | h)
      · exact Or.inl ⟨le_rfl, le_rfl⟩
      · exact Or.inr h

theorem mergeRuns_struct {l : List Nat} (hl : List.Pairwise (· < ·) l) :
    (∀ p ∈ mergeRuns l, p.1 ≤ p.2) ∧
    List.Pairwise (fun p q : Nat × Nat => p.2 + 1 < q.1) (mergeRuns l) := by
  cases l with
  | nil => exact ⟨fun p hp => absurd hp (List.not_mem_nil p), List.Pairwise.nil⟩
  | cons a rest =>
    have hch : List.Chain (· < ·) a rest := List.chain_iff_pairwise.mpr hl
    obtain ⟨h1, h2⟩ := mergeRunsAux_struct rest a a le_rfl hch
    exact ⟨fun p hp => (h1 p hp).2, h2⟩

theorem mergeRuns_maximal {l : List Nat} (hl : List.Pairwise (· < ·) l)
    {p : Nat × Nat} (hp : p ∈ mergeRuns l) :
    p.2 + 1 ∉ l ∧ (0 < p.1 → p.1 - 1 ∉ l) := by
  obtain ⟨hle, hsep⟩ := mergeRuns_struct hl
  have hsym : List.Pairwise
      (fun p q : Nat × Nat => p.2 + 1 < q.1 ∨ q.2 + 1 < p.1) (mergeRuns l) :=
    hsep.imp (fun h => Or.inl h)
  have hforall := hsym.forall (fun p q h => h.symm)
  have key : ∀ s : Nat, s ∈ l → (∃ q ∈ mergeRuns l, q.1 ≤ s ∧ s ≤ q.2) :=
    fun s hs => (mergeRuns_cover hl s).mpr hs
  constructor
  · intro hmem
    obtain ⟨q, hq, hq1, hq2⟩ := key _ hmem
    by_cases hqp : q = p
    · subst hqp
      omega
    · rcases hforall hq hp hqp with h | h
      · have h1 := hle p hp
        have h2 := hle q hq
        omega
      · have h1 := hle p hp
        have h2 := hle q hq
        omega
  · intro hpos hmem
    obtain ⟨q, hq, hq1, hq2⟩ := key _ hmem
    by_cases hqp : q = p
    · subst hqp
      omega
    · rcases hforall hq hp hqp with h | h
      · have h1 := hle p hp
        have h2 := hle q hq
        omega
      · have h1 := hle p hp
        have h2 := hle q hq
        omega

theorem mergeRuns_ends_mem {l : List Nat} (hl : List.Pairwise (· < ·) l)
    {p : Nat × Nat} (hp : p ∈ mergeRuns l) : p.1 ∈ l ∧ p.2 ∈ l := by
  have hle := (mergeRuns_struct hl).1 p hp
  exact ⟨(mergeRuns_cover hl p.1).mp ⟨p, hp, le_rfl, hle⟩,
    (mergeRuns_cover hl p.2).mp ⟨p, hp, hle, le_rfl⟩⟩

theorem selectedSlots_sorted (states : CellMap) (day : Nat) :
    List.Pairwise (· < ·) (selectedSlots states day) :=
  (List.pairwise_lt_range 48).filter _

theorem mem_selectedSlots {states : CellMap} {day s : Nat} :
    s ∈ selectedSlots states day ↔ s < 48 ∧ dictGet states (day, s) = true := by
  simp [selectedSlots, List.mem_filter, List.mem_range, and_comm]

/-! ## Properties of `update_selection` -/

theorem foldl_set_lookup (mode : Bool) (l : List (Nat × Nat)) :
    ∀ (states : CellMap) (k : Nat × Nat),
    (l.foldl (fun st p => set_cell_state st p.1 p.2 mode) states) k
      = if k ∈ l then some mode else states k := by
  induction l with
  | nil =>
    intro states k
    simp
  | cons p l ih =>
    intro states k
    rw [List.foldl_cons, ih]
    by_cases hk : k ∈ l
    · simp [hk, List.mem_cons]
    · by_cases hkp : k = p
      · subst hkp
        simp [hk, set_cell_state]
      · simp [hk, hkp, set_cell_state]

theorem update_selection_lookup (states : CellMap) (start stop : Nat × Nat)
    (mode : Bool) (d s : Nat) (hs : s < 48) :
    update_selection states start stop mode (d, s)
      = if min (start.1 * 48 + start.2) (stop.1 * 48 + stop.2) ≤ d * 48 + s ∧
           d * 48 + s ≤ max (start.1 * 48 + start.2) (stop.1 * 48 + stop.2)
        then some mode else states (d, s) := by
  have hminmax : min (start.1 * 48 + start.2) (stop.1 * 48 + stop.2)
      ≤ max (start.1 * 48 + start.2) (stop.1 * 48 + stop.2) :=
    min_le_max
  unfold update_selection
  rw [foldl_set_lookup]
  have hmem : ((d, s) ∈ (List.range'
        (min (start.1 * 48 + start.2) (stop.1 * 48 + stop.2))
        (max (start.1 * 48 + start.2) (stop.1 * 48 + stop.2) + 1 -
          min (start.1 * 48 + start.2) (stop.1 * 48 + stop.2))).map
        (fun o => (o / 48, o % 48))) ↔
      (min (start.1 * 48 + start.2) (stop.1 * 48 + stop.2) ≤ d * 48 + s ∧
        d * 48 + s ≤ max (start.1 * 48 + start.2) (stop.1 * 48 + stop.2)) := by
    simp only [List.mem_map, List.mem_range'_1]
    constructor
    · rintro ⟨o, ⟨h1, h2⟩, heq⟩
      have hd : o / 48 = d := congrArg Prod.fst heq
      have hsl : o % 48 = s := congrArg Prod.snd heq
      omega
    · rintro ⟨h1, h2⟩
      refine ⟨d * 48 + s, ⟨h1, by omega⟩, ?_⟩
      have hd : (d * 48 + s) / 48 = d := by omega
      have hsl : (d * 48 + s) % 48 = s := by omega
      rw [hd, hsl]
  exact if_congr hmem rfl rfl

/-! ## Exception propagation through the proposal loops -/

theorem optMap_eq_none {f : α → Option β} {l : List α} :
    optMap f l = none ↔ ∃ a ∈ l, f a = none := by
  induction l with
  | nil => simp [optMap]
  | cons a l ih =>
    rw [optMap]
    cases hfa : f a with
    | none =>
      simp only [List.mem_cons]
      exact ⟨fun _ => ⟨a, Or.inl rfl, hfa⟩, fun _ => by trivial⟩
    | some b =>
      cases hol : optMap f l with
      | none =>
        simp only [List.mem_cons]
        obtain ⟨x, hx, hfx⟩ := ih.mp hol
        exact ⟨fun _ => ⟨x, Or.inr hx, hfx⟩, fun _ => by trivial⟩
      | some bs =>
        simp only [List.mem_cons]
        constructor
        · intro h
          exact absurd h (by simp)
        · rintro ⟨x, hx | hx, hfx⟩
          · subst hx
            rw [hfa] at hfx
            exact absurd hfx (by simp)
          · rw [ih.mpr ⟨x, hx, hfx⟩] at hol
            exact absurd hol (by simp)

theorem optMap_mem_some {f : α → Option β} {l : List α} :
    ∀ {bs : List β}, optMap f l = some bs → ∀ b ∈ bs, ∃ a ∈ l, f a = some b := by
  induction l with
  | nil =>
    intro bs h b hb
    rw [optMap] at h
    cases h
    exact absurd hb (List.not_mem_nil b)
  | cons a l ih =>
    intro bs h b hb
    rw [optMap] at h
    cases hfa : f a with
    | none => rw [hfa] at h; cases h
    | some b' =>
      rw [hfa] at h
      cases hol : optMap f l with
      | none => rw [hol] at h; cases h
      | some bs' =>
        rw [hol] at h
        cases h
        rcases List.mem_cons.mp hb with rfl | hb'
        · exact ⟨a, List.mem_cons_self a l, hfa⟩
        · obtain ⟨x, hx, hfx⟩ := ih hol b hb'
          exact ⟨x, List.mem_cons_of_mem a hx, hfx⟩

theorem get_slot_datetime_eq_none {today slot : Nat} :
    get_slot_datetime today slot = none ↔ 48 ≤ slot := by
  rw [get_slot_datetime]
  by_cases h : slot * 30 / 60 < 24
  · simp only [if_pos h]
    constructor
    · intro hc
      exact absurd hc (by simp)
    · intro hc
      omega
  · simp only [if_neg h]
    exact ⟨fun _ => by omega, fun _ => by trivial⟩

theorem get_slot_datetime_eq_some {today slot : Nat} (h : slot < 48) :
    get_slot_datetime today slot = some (today * 1440 + slot * 30) := by
  have heq : today * 1440 + (slot * 30 / 60) * 60 + slot * 30 % 60
      = today * 1440 + slot * 30 := by omega
  rw [get_slot_datetime, if_pos (by omega : slot * 30 / 60 < 24), heq]

theorem makeRange_eq_none {localOff targetOff : Int → Int} {today : Nat}
    {g : Nat × Nat} (h1 : g.1 < 48) :
    makeRange localOff targetOff today g = none ↔ 48 ≤ g.2 + 1 := by
  rw [makeRange, get_slot_datetime_eq_some h1]
  by_cases h : 48 ≤ g.2 + 1
  · rw [get_slot_datetime_eq_none.mpr h]
    exact ⟨fun _ => h, fun _ => by trivial⟩
  · rw [get_slot_datetime_eq_some (by omega)]
    constructor
    · intro hc
      exact absurd hc (by simp)
    · intro hc
      exact absurd hc h

theorem makeRange_eq_some {localOff targetOff : Int → Int} {today : Nat}
    {g : Nat × Nat} {r : RangeOut}
    (h : makeRange localOff targetOff today g = some r) :
    r.startSlot = g.1 ∧ r.endSlot = g.2 ∧
    r.startNaive = today * 1440 + g.1 * 30 ∧
    r.endNaive = today * 1440 + (g.2 + 1) * 30 := by
  rw [makeRange] at h
  cases hs : get_slot_datetime today g.1 with
  | none => rw [hs] at h; cases h
  | some sn =>
    rw [hs] at h
    cases he : get_slot_datetime today (g.2 + 1) with
    | none => rw [he] at h; cases h
    | some en =>
      rw [he] at h
      cases h
      have hlt : g.1 < 48 := by
        by_contra hc
        rw [get_slot_datetime_eq_none.mpr (by omega)] at hs
        cases hs
      have hlt2 : g.2 + 1 < 48 := by
        by_contra hc
        rw [get_slot_datetime_eq_none.mpr (by omega)] at he
        cases he
      rw [get_slot_datetime_eq_some hlt] at hs
      rw [get_slot_datetime_eq_some hlt2] at he
      cases hs
      cases he
      exact ⟨rfl, rfl, rfl, rfl⟩

/-- A day's range loop raises iff slot 47 of that day is selected (the only
exception source is `get_slot_datetime(47 + 1)`). -/
theorem dayRanges_eq_none {localOff targetOff : Int → Int}
    {states : CellMap} {today day : Nat} :
    optMap (makeRange localOff targetOff today)
        (mergeRuns (selectedSlots states day)) = none ↔
      dictGet states (day, 47) = true := by
  have hsort := selectedSlots_sorted states day
  rw [optMap_eq_none]
  constructor
  · rintro ⟨g, hg, hnone⟩
    obtain ⟨hg1, hg2⟩ := mergeRuns_ends_mem hsort hg
    have hg1' := mem_selectedSlots.mp hg1
    have hg2' := mem_selectedSlots.mp hg2
    have h47 : 48 ≤ g.2 + 1 := (makeRange_eq_none hg1'.1).mp hnone
    have : g.2 = 47 := by omega
    rw [← this]
    exact hg2'.2
  · intro h47
    have hmem : (47 : Nat) ∈ selectedSlots states day :=
      mem_selectedSlots.mpr ⟨by omega, h47⟩
    obtain ⟨g, hg, hc1, hc2⟩ := (mergeRuns_cover hsort 47).mpr hmem
    refine ⟨g, hg, ?_⟩
    have hg1' := mem_selectedSlots.mp (mergeRuns_ends_mem hsort hg).1
    exact (makeRange_eq_none hg1'.1).mpr (by omega)

theorem dayLinesFrom_eq_none {states : CellMap} {localOff targetOff : Int → Int}
    {today : Nat} : ∀ {days : List Nat},
    dayLinesFrom states localOff targetOff today days = none ↔
    ∃ day ∈ days, dictGet states (day, 47) = true := by
  intro days
  induction days with
  | nil => simp [dayLinesFrom]
  | cons day rest ih =>
    rw [dayLinesFrom]
    by_cases hemp : (selectedSlots states day).isEmpty
    · rw [if_pos hemp, ih]
      have h47 : dictGet states (day, 47) = false := by
        by_contra hc
        have : (47 : Nat) ∈ selectedSlots states day :=
          mem_selectedSlots.mpr ⟨by omega, by simpa using hc⟩
        rw [List.isEmpty_iff] at hemp
        rw [hemp] at this
        exact absurd this (List.not_mem_nil 47)
      simp only [List.mem_cons]
      constructor
      · rintro ⟨d, hd, hsel⟩
        exact ⟨d, Or.inr hd, hsel⟩
      · rintro ⟨d, rfl | hd, hsel⟩
        · rw [h47] at hsel
          cases hsel
        · exact ⟨d, hd, hsel⟩
    · rw [if_neg hemp]
      cases hopt : optMap (makeRange localOff targetOff today)
          (mergeRuns (selectedSlots states day)) with
      | none =>
        have h47 := dayRanges_eq_none.mp hopt
        simp only [List.mem_cons]
        exact ⟨fun _ => ⟨day, Or.inl rfl, h47⟩, fun _ => by trivial⟩
      | some ranges =>
        have h47 : dictGet states (day, 47) ≠ true := by
          intro hc
          rw [dayRanges_eq_none.mpr hc] at hopt
          cases hopt
        cases hrest : dayLinesFrom states localOff targetOff today rest with
        | none =>
          obtain ⟨d, hd, hsel⟩ := ih.mp hrest
          simp only [List.mem_cons]
          exact ⟨fun _ => ⟨d, Or.inr hd, hsel⟩, fun _ => by trivial⟩
        | some tail =>
          simp only [List.mem_cons]
          constructor
          · intro h
            exact absurd h (by simp)
          · rintro ⟨d, rfl | hd, hsel⟩
            · exact absurd hsel h47
            · rw [ih.mpr ⟨d, hd, hsel⟩] at hrest
              cases hrest

theorem dayLinesFrom_mem {states : CellMap} {localOff targetOff : Int → Int}
    {today : Nat} : ∀ {days : List Nat} {ls : List DayLine},
    dayLinesFrom states localOff targetOff today days = some ls →
    ∀ L ∈ ls, L.day ∈ days ∧ L.dayDate = today - today % 7 + L.day ∧
      optMap (makeRange localOff targetOff today)
        (mergeRuns (selectedSlots states L.day)) = some L.ranges := by
  intro days
  induction days with
  | nil =>
    intro ls h L hL
    rw [dayLinesFrom] at h
    cases h
    exact absurd hL (List.not_mem_nil L)
  | cons day rest ih =>
    intro ls h L hL
    rw [dayLinesFrom] at h
    by_cases hemp : (selectedSlots states day).isEmpty
    · rw [if_pos hemp] at h
      obtain ⟨hd, hdd, hr⟩ := ih h L hL
      exact ⟨List.mem_cons_of_mem day hd, hdd, hr⟩
    · rw [if_neg hemp] at h
      cases hopt : optMap (makeRange localOff targetOff today)
          (mergeRuns (selectedSlots states day)) with
      | none => rw [hopt] at h; cases h
      | some ranges =>
        rw [hopt] at h
        cases hrest : dayLinesFrom states localOff targetOff today rest with
        | none => rw [hrest] at h; cases h
        | some tail =>
          rw [hrest] at h
          cases h
          rcases List.mem_cons.mp hL with rfl | hL'
          · exact ⟨List.mem_cons_self day rest, rfl, hopt⟩
          · obtain ⟨hd, hdd, hr⟩ := ih hrest L hL'
            exact ⟨List.mem_cons_of_mem day hd, hdd, hr⟩

/-! ## Concrete inputs used by the claim theorems -/

/-- The zero-offset timezone (UTC; also any fixed zone at offset `0`). -/
def zeroOff : Int → Int := fun _ => 0

/-- The grid with exactly cell `(0, 47)` selected (day 0, 23:30 slot). -/
def slot47States : CellMap :=
  fun k => if k = (0, 47) then some true else create_time_grid k

/-- The grid with exactly cell `(2, 47)` selected (day 2, 23:30 slot). -/
def day2slot47States : CellMap :=
  fun k => if k = (2, 47) then some true else create_time_grid k

/-- The grid with exactly cell `(0, 16)` selected (day 0, 08:00 slot). -/
def slot16States : CellMap :=
  fun k => if k = (0, 16) then some true else create_time_grid k

/-- The grid with exactly slots `{10, 11, 12, 15}` of day 3 selected. -/
def run4States : CellMap :=
  fun k => if k.1 = 3 ∧ (k.2 = 10 ∨ k.2 = 11 ∨ k.2 = 12 ∨ k.2 = 15)
    then some true else create_time_grid k

/-- The range emitted for the single selected slot 16 with zero offsets and
`today = 2`. -/
def slot16Range : RangeOut :=
  { startSlot := 16, endSlot := 16, startNaive := 3360, endNaive := 3390,
    rangeStr := "08:00 - 08:30" }

/-- The day line emitted for `slot16States` with `today = 2`. -/
def slot16Line : DayLine := { day := 0, dayDate := 0, ranges := [slot16Range] }

/-- The proposal generated from `slot16States` with zero offsets, `today = 2`. -/
def slot16Proposal : Proposal :=
  { duration := "30 minutes", targetDisp := "(UTC+00:00) UTC",
    dayLines := [slot16Line], noTimes := false }

/-! ## Claim theorems -/

/-- C1: the claim says that when a run ends at slot 47, proposal generation
converts slot index 48 and the end time rolls over to 00:00 of the next
calendar day rather than wrapping or failing.  In the code
`get_slot_datetime(48)` calls `datetime.time(hour=24, ...)`, which raises
`ValueError`, and `update_meeting_proposal` has no handler: with only cell
`(0, 47)` selected, proposal generation aborts with an exception (`none`)
instead of producing the rolled-over end time. -/
theorem C1_slot47_end_conversion_raises :
    get_slot_datetime 0 48 = none ∧
    update_meeting_proposal slot47States zeroOff zeroOff 0 "30 minutes"
      "(UTC+00:00) UTC" = none := by
  exact ⟨rfl, rfl⟩

/-- C2 (counterexample): the claim says proposal generation never propagates an
exception; but with cell `(2, 47)` selected, `update_meeting_proposal` raises
(`none`): the `ValueError` from `get_slot_datetime(48)` propagates to the
caller. -/
theorem C2_counterexample_slot47_raises :
    update_meeting_proposal day2slot47States zeroOff zeroOff 0 "an hour"
      "(UTC+00:00) UTC" = none := by
  exact rfl

/-- C2 (amended): proposal generation propagates an exception exactly when
slot 47 of some day is selected (then the end-of-run conversion of slot index
48 raises `ValueError` and `update_meeting_proposal` has no handler); for
every other selection and any timezones it completes without exception.  The
skip-and-continue handling of per-slot failures exists only in
`update_time_labels`, not in proposal generation. -/
theorem C2_amended_raises_iff_slot47 (states : CellMap)
    (localOff targetOff : Int → Int) (today : Nat)
    (duration targetDisp : String) :
    update_meeting_proposal states localOff targetOff today duration targetDisp
        = none ↔
      ∃ day, day < 7 ∧ dictGet states (day, 47) = true := by
  rw [update_meeting_proposal]
  cases h : dayLinesFrom states localOff targetOff today (List.range 7) with
  | none =>
    obtain ⟨d, hd, hsel⟩ := dayLinesFrom_eq_none.mp h
    exact ⟨fun _ => ⟨d, List.mem_range.mp hd, hsel⟩, fun _ => rfl⟩
  | some ls =>
    constructor
    · intro hc
      exact absurd hc (by simp)
    · rintro ⟨d, hd, hsel⟩
      rw [dayLinesFrom_eq_none.mpr ⟨d, List.mem_range.mpr hd, hsel⟩] at h
      cases h

/-- C2 (witness): instance of the amended theorem at a concrete selection. -/
theorem C2_amended_witness :
    update_meeting_proposal slot47States zeroOff zeroOff 3 "30 minutes"
      "(UTC+00:00) UTC" = none :=
  (C2_amended_raises_iff_slot47 slot47States zeroOff zeroOff 3 "30 minutes"
    "(UTC+00:00) UTC").mpr ⟨0, by decide, by decide⟩

/-- C3 (counterexample): the claim says the datetime localized for a run on
day index `d` carries the calendar date `weekAnchor + d`.  With `today = 2`
(a Wednesday; `weekAnchor = 0`) and only cell `(0, 16)` selected, the emitted
day line is for day index 0 with display date 0 (the Monday), but the naive
datetime handed to `localize` is minute 3360, i.e. calendar date
`3360 / 1440 = 2` — today's date, not date 0 of the displayed week. -/
theorem C3_counterexample_run_dated_today :
    ((update_meeting_proposal slot16States zeroOff zeroOff 2 "30 minutes"
        "(UTC+00:00) UTC").map
      (fun P => P.dayLines.map (fun L => (L.day, L.dayDate,
        L.ranges.map (fun r => (r.startSlot, r.startNaive)))))
      = some [(0, 0, [(16, 3360)])]) ∧
    3360 / 1440 = 2 ∧ (2 : Nat) ≠ 0 := by
  refine ⟨by rfl, by norm_num, by norm_num⟩

/-- C3 (amended): for every run emitted by proposal generation, the localized
start datetime is `today`'s calendar date at the wall-clock time of the run's
starting slot, and the end is `today`'s date at the time of slot
`run.end + 1`, regardless of the day index; the date `weekAnchor + dayIndex`
is used only for the day line's displayed label (`dayDate`). -/
theorem C3_amended_runs_dated_today (states : CellMap)
    (localOff targetOff : Int → Int) (today : Nat)
    (duration targetDisp : String) (P : Proposal) (L : DayLine) (r : RangeOut)
    (hP : update_meeting_proposal states localOff targetOff today duration
      targetDisp = some P)
    (hL : L ∈ P.dayLines) (hr : r ∈ L.ranges) :
    L.dayDate = today - today % 7 + L.day ∧
    r.startSlot < 48 ∧ r.endSlot + 1 < 48 ∧
    r.startNaive = today * 1440 + r.startSlot * 30 ∧
    r.endNaive = today * 1440 + (r.endSlot + 1) * 30 ∧
    r.startNaive / 1440 = today ∧ r.endNaive / 1440 = today := by
  rw [update_meeting_proposal] at hP
  cases h : dayLinesFrom states localOff targetOff today (List.range 7) with
  | none => rw [h] at hP; cases hP
  | some ls =>
    rw [h] at hP
    cases hP
    obtain ⟨_, hdd, hranges⟩ := dayLinesFrom_mem h L hL
    obtain ⟨g, hg, hmk⟩ := optMap_mem_some hranges r hr
    have hsort := selectedSlots_sorted states L.day
    have hg1 := mem_selectedSlots.mp (mergeRuns_ends_mem hsort hg).1
    have hg2 := mem_selectedSlots.mp (mergeRuns_ends_mem hsort hg).2
    obtain ⟨hss, hes, hsn, hen⟩ := makeRange_eq_some hmk
    have hend : g.2 + 1 < 48 := by
      by_contra hc
      rw [(makeRange_eq_none hg1.1).mpr (by omega)] at hmk
      cases hmk
    refine ⟨hdd, ?_, ?_, ?_, ?_, ?_, ?_⟩
    · omega
    · omega
    · rw [hss]
      exact hsn
    · rw [hes]
      exact hen
    · rw [hsn]
      have h1 := hg1.1
      omega
    · rw [hen]
      omega

/-- C3 (witness): instance of the amended theorem at the concrete selection of
cell `(0, 16)` with `today = 2` and zero offsets. -/
theorem C3_amended_witness :
    slot16Line.dayDate = 2 - 2 % 7 + slot16Line.day ∧
    slot16Range.startSlot < 48 ∧ slot16Range.endSlot + 1 < 48 ∧
    slot16Range.startNaive = 2 * 1440 + slot16Range.startSlot * 30 ∧
    slot16Range.endNaive = 2 * 1440 + (slot16Range.endSlot + 1) * 30 ∧
    slot16Range.startNaive / 1440 = 2 ∧ slot16Range.endNaive / 1440 = 2 :=
  C3_amended_runs_dated_today slot16States zeroOff zeroOff 2 "30 minutes"
    "(UTC+00:00) UTC" slot16Proposal slot16Line slot16Range (by rfl)
    (by decide) (by decide)

/-- C4: each day's selected slots are merged into maximal runs of consecutive
slot indices — a slot is selected iff some run covers it, every run consists
of selected slots with unselected (or out-of-range) immediate neighbours, the
runs of a day depend only on that day's own slot states, and the concrete
selection `{10, 11, 12, 15}` yields exactly the runs `[(10, 12), (15, 15)]`. -/
theorem C4_day_runs_maximal (states : CellMap) (day : Nat) :
    (∀ s, s < 48 → (dictGet states (day, s) = true ↔
        ∃ p ∈ mergeRuns (selectedSlots states day), p.1 ≤ s ∧ s ≤ p.2))
  ∧ (∀ p ∈ mergeRuns (selectedSlots states day),
        p.1 ≤ p.2 ∧ p.2 < 48 ∧
        dictGet states (day, p.1) = true ∧ dictGet states (day, p.2) = true ∧
        (p.2 + 1 < 48 → dictGet states (day, p.2 + 1) = false) ∧
        (0 < p.1 → dictGet states (day, p.1 - 1) = false))
  ∧ (∀ states' : CellMap,
        (∀ s, s < 48 → dictGet states' (day, s) = dictGet states (day, s)) →
        mergeRuns (selectedSlots states' day)
          = mergeRuns (selectedSlots states day))
  ∧ mergeRuns [10, 11, 12, 15] = [(10, 12), (15, 15)] := by
  have hsort := selectedSlots_sorted states day
  refine ⟨?_, ?_, ?_, by decide⟩
  · intro s hs
    constructor
    · intro h
      exact (mergeRuns_cover hsort s).mpr (mem_selectedSlots.mpr ⟨hs, h⟩)
    · intro h
      exact (mem_selectedSlots.mp ((mergeRuns_cover hsort s).mp h)).2
  · intro p hp
    have hle := (mergeRuns_struct hsort).1 p hp
    have hmem := mergeRuns_ends_mem hsort hp
    have h1 := mem_selectedSlots.mp hmem.1
    have h2 := mem_selectedSlots.mp hmem.2
    obtain ⟨hnot2, hnot1⟩ := mergeRuns_maximal hsort hp
    refine ⟨hle, h2.1, h1.2, h2.2, ?_, ?_⟩
    · intro hlt
      by_contra hc
      exact hnot2 (mem_selectedSlots.mpr ⟨hlt, by simpa using hc⟩)
    · intro hpos
      by_contra hc
      exact hnot1 hpos (mem_selectedSlots.mpr ⟨by omega, by simpa using hc⟩)
  · intro states' hsame
    have : selectedSlots states' day = selectedSlots states day := by
      apply List.filter_congr
      intro s hs
      exact hsame s (List.mem_range.mp hs)
    rw [this]

/-- C4 (witness): instance of the coverage equivalence on the concrete grid
with slots `{10, 11, 12, 15}` of day 3 selected, at slot 11. -/
theorem C4_witness :
    dictGet run4States (3, 11) = true ↔
      ∃ p ∈ mergeRuns (selectedSlots run4States 3), p.1 ≤ 11 ∧ 11 ≤ p.2 :=
  (C4_day_runs_maximal run4States 3).1 11 (by decide)

/-- C5: drag extension paints, with the current paint value, exactly the cells
whose global ordinal `day * 48 + slot` lies between the anchor's and the
current cell's ordinals inclusive (all other cells keep their prior entry);
and concretely, clicking cell `(0, 47)` on the empty grid and dragging to
`(1, 0)` selects exactly the two cells `(0, 47)` and `(1, 0)`. -/
theorem C5_drag_paints_ordinal_interval :
    (∀ (states : CellMap) (a c : Nat × Nat) (mode : Bool) (d s : Nat),
        s < 48 →
        update_selection states a c mode (d, s)
          = if min (a.1 * 48 + a.2) (c.1 * 48 + c.2) ≤ d * 48 + s ∧
               d * 48 + s ≤ max (a.1 * 48 + a.2) (c.1 * 48 + c.2)
            then some mode else states (d, s))
  ∧ (∀ d : Nat, d < 7 → ∀ s : Nat, s < 48 →
      (dictGet (on_drag (on_cell_click initState (0, 47))
          (some (1, 0))).cell_states (d, s) = true ↔
        ((d, s) = ((0 : Nat), (47 : Nat)) ∨ (d, s) = ((1 : Nat), (0 : Nat))))) := by
  refine ⟨update_selection_lookup, ?_⟩
  decide

/-- C5 (witness): the painted value at cell `(1, 0)` after a drag anchored at
`(0, 47)` reaching `(1, 0)` on the freshly initialized grid. -/
theorem C5_witness :
    update_selection create_time_grid (0, 47) (1, 0) true (1, 0) = some true :=
  (C5_drag_paints_ordinal_interval.1 create_time_grid (0, 47) (1, 0) true 1 0
    (by decide)).trans (if_pos (by decide))

/-- C10: a drag-extension step leaves every cell whose global ordinal lies
strictly outside the closed interval between the anchor's and the current
cell's ordinals with exactly its prior state; in particular, after painting
`(0, 10)`–`(0, 20)` and retracting the drag to `(0, 15)`, the cells
`(0, 10)`–`(0, 20)` are all still selected (no revert). -/
theorem C10_drag_frame_outside_interval :
    (∀ (states : CellMap) (a c : Nat × Nat) (mode : Bool) (d s : Nat),
        s < 48 →
        (d * 48 + s < min (a.1 * 48 + a.2) (c.1 * 48 + c.2) ∨
          max (a.1 * 48 + a.2) (c.1 * 48 + c.2) < d * 48 + s) →
        update_selection states a c mode (d, s) = states (d, s))
  ∧ (∀ s : Nat, s < 48 → 10 ≤ s → s ≤ 20 →
      dictGet (on_drag (on_drag (on_cell_click initState (0, 10))
          (some (0, 20))) (some (0, 15))).cell_states (0, s) = true) := by
  constructor
  · intro states a c mode d s hs hout
    rw [update_selection_lookup states a c mode d s hs, if_neg]
    omega
  · decide

/-- C10 (witness): cell `(0, 18)` (ordinal 18, outside the interval
`[10, 15]`) keeps its prior state under a drag step from `(0, 10)` to
`(0, 15)` on the fresh grid. -/
theorem C10_witness :
    update_selection create_time_grid (0, 10) (0, 15) true (0, 18)
      = create_time_grid (0, 18) :=
  C10_drag_frame_outside_interval.1 create_time_grid (0, 10) (0, 15) true 0 18
    (by decide) (by decide)

/-- C6: business-hours classification localizes the slot's time in the source
timezone, converts it to the target timezone, and the test `8 <= hour < 18` on
the converted time holds exactly when the target-local minute-of-day is at or
after 08:00 (480) and strictly before 18:00 (1080); concretely, a target-local
time of exactly 08:00 is business hours and exactly 18:00 is not. -/
theorem C6_business_hours_target_window :
    (∀ (localOff targetOff : Int → Int) (today slot : Nat), slot < 48 →
        is_business_hours localOff targetOff today slot
          = some (decide
              (480 ≤ minuteOfDay (tzConvert localOff targetOff
                  ((today * 1440 + slot * 30 : Nat) : Int)) ∧
                minuteOfDay (tzConvert localOff targetOff
                  ((today * 1440 + slot * 30 : Nat) : Int)) < 1080)))
  ∧ is_business_hours zeroOff zeroOff 0 16 = some true
  ∧ is_business_hours zeroOff zeroOff 0 36 = some false := by
  refine ⟨?_, by decide, by decide⟩
  intro localOff targetOff today slot h
  rw [is_business_hours, get_slot_datetime_eq_some h, Option.map_some']
  congr 1
  rw [decide_eq_decide]
  simp only [hourOf]
  omega

/-- C6 (witness): instance of the classification equivalence at slot 16 with
zero offsets on date 5. -/
theorem C6_witness :
    is_business_hours zeroOff zeroOff 5 16
      = some (decide
          (480 ≤ minuteOfDay (tzConvert zeroOff zeroOff
              ((5 * 1440 + 16 * 30 : Nat) : Int)) ∧
            minuteOfDay (tzConvert zeroOff zeroOff
              ((5 * 1440 + 16 * 30 : Nat) : Int)) < 1080)) :=
  C6_business_hours_target_window.1 zeroOff zeroOff 5 16 (by decide)

/-- C7: resolving a display label to a timezone id is total: a label matching
no catalog entry's display name resolves to the fixed default `"Etc/UTC"`, and
a label matching some entry resolves to a matching entry's canonical id. -/
theorem C7_resolve_label_never_throws (tzList : List (String × String))
    (label : String) :
    ((∀ p ∈ tzList, p.1 ≠ label) → resolve_tz tzList label = "Etc/UTC")
  ∧ (∀ p ∈ tzList, p.1 = label →
      ∃ q ∈ tzList, q.1 = label ∧ resolve_tz tzList label = q.2) := by
  constructor
  · intro hall
    have hnone : List.find? (fun p => p.1 == label) tzList = none :=
      List.find?_eq_none.mpr (fun x hx => by simpa using hall x hx)
    rw [resolve_tz, hnone]
  · intro p hp hlab
    cases hfind : List.find? (fun q => q.1 == label) tzList with
    | none =>
      exfalso
      have := List.find?_eq_none.mp hfind p hp
      simp [hlab] at this
    | some q =>
      refine ⟨q, List.mem_of_find?_eq_some hfind, ?_, ?_⟩
      · have := List.find?_some hfind
        simpa using this
      · rw [resolve_tz, hfind]

/-- C7 (witness): an unmatched label on a concrete catalog resolves to the
default id. -/
theorem C7_witness :
    resolve_tz [("(UTC-08:00) US Pacific Time", "America/Los_Angeles")]
      "no such label" = "Etc/UTC" :=
  (C7_resolve_label_never_throws
    [("(UTC-08:00) US Pacific Time", "America/Los_Angeles")]
    "no such label").1 (by decide)

/-- C8: for any snapshot of offset lookups, the timezone catalog is the
projection of the entry list sorted by UTC offset ascending with ties broken
by canonical timezone id ascending (`tzKeyLe`); being a pure function of the
input, the order is deterministic. -/
theorem C8_catalog_sorted_by_offset_then_id
    (input : List (String × Option Int)) :
    List.Sorted tzKeyLe (sorted_tz_entries input) ∧
    get_timezones input
      = (sorted_tz_entries input).map (fun e => (e.2.1, e.2.2)) :=
  ⟨List.sorted_insertionSort tzKeyLe (tz_entries input), rfl⟩

/-- C8 (witness): instance of the sortedness fact at a concrete snapshot
(including a failing lookup that is skipped). -/
theorem C8_witness :
    List.Sorted tzKeyLe (sorted_tz_entries
      [("UTC", some 0), ("Africa/Cairo", some 120), ("Bad/Zone", none),
        ("America/New_York", some (-300))]) :=
  (C8_catalog_sorted_by_offset_then_id
    [("UTC", some 0), ("Africa/Cairo", some 120), ("Bad/Zone", none),
      ("America/New_York", some (-300))]).1

/-- Invariant: every key present in the cell-state dictionary is a valid
`(day, slot)` pair with `day < 7` and `slot < 48`. -/
def validKeys (m : CellMap) : Prop :=
  ∀ k : Nat × Nat, (m k).isSome = true → k.1 < 7 ∧ k.2 < 48

theorem validKeys_create_time_grid : validKeys create_time_grid := by
  intro k h
  rw [create_time_grid] at h
  by_cases hk : k.1 < 7 ∧ k.2 < 48
  · exact hk
  · rw [if_neg hk] at h
    exact absurd h (by simp)

theorem validKeys_set {m : CellMap} (hm : validKeys m) {d s : Nat}
    (hd : d < 7) (hs : s < 48) (v : Bool) :
    validKeys (set_cell_state m d s v) := by
  intro k h
  rw [set_cell_state] at h
  by_cases hk : k = (d, s)
  · subst hk
    exact ⟨hd, hs⟩
  · rw [if_neg hk] at h
    exact hm k h

theorem validKeys_foldl (mode : Bool) : ∀ (l : List (Nat × Nat)) (m : CellMap),
    validKeys m → (∀ p ∈ l, p.1 < 7 ∧ p.2 < 48) →
    validKeys (l.foldl (fun st p => set_cell_state st p.1 p.2 mode) m) := by
  intro l
  induction l with
  | nil =>
    intro m hm _
    simpa using hm
  | cons p l ih =>
    intro m hm hall
    rw [List.foldl_cons]
    apply ih
    · exact validKeys_set hm (hall p (List.mem_cons_self p l)).1
        (hall p (List.mem_cons_self p l)).2 mode
    · intro q hq
      exact hall q (List.mem_cons_of_mem p hq)

theorem validKeys_update_selection {m : CellMap} (hm : validKeys m)
    {a c : Nat × Nat} (ha1 : a.1 < 7) (ha2 : a.2 < 48) (hc1 : c.1 < 7)
    (hc2 : c.2 < 48) (mode : Bool) :
    validKeys (update_selection m a c mode) := by
  show validKeys (((List.range' (min (a.1 * 48 + a.2) (c.1 * 48 + c.2))
      (max (a.1 * 48 + a.2) (c.1 * 48 + c.2) + 1 -
        min (a.1 * 48 + a.2) (c.1 * 48 + c.2))).map
      (fun o => (o / 48, o % 48))).foldl
      (fun st p => set_cell_state st p.1 p.2 mode) m)
  apply validKeys_foldl mode _ m hm
  intro p hp
  obtain ⟨o, ho, rfl⟩ := List.mem_map.mp hp
  rw [List.mem_range'_1] at ho
  have hmin : min (a.1 * 48 + a.2) (c.1 * 48 + c.2)
      ≤ max (a.1 * 48 + a.2) (c.1 * 48 + c.2) := min_le_max
  have hmax : max (a.1 * 48 + a.2) (c.1 * 48 + c.2) ≤ 335 :=
    max_le (by omega) (by omega)
  constructor <;> omega

/-- C9: every key of the cell-state dictionary is a valid `(day, slot)` pair
with `day ∈ [0, 6]` and `slot ∈ [0, 47]`: the initial grid satisfies the
invariant, and every writing operation — `set_cell_state`, cell click,
right-click clear, and drag extension (both `update_selection` itself and the
`on_drag` handler) — preserves it when fed grid cells. -/
theorem C9_cell_states_keys_valid :
    validKeys create_time_grid
  ∧ (∀ (m : CellMap) (d s : Nat) (v : Bool), validKeys m → d < 7 → s < 48 →
      validKeys (set_cell_state m d s v))
  ∧ (∀ (st : SchedState) (cell : Nat × Nat), validKeys st.cell_states →
      cell.1 < 7 → cell.2 < 48 →
      validKeys (on_cell_click st cell).cell_states)
  ∧ (∀ (st : SchedState) (cell : Nat × Nat), validKeys st.cell_states →
      cell.1 < 7 → cell.2 < 48 →
      validKeys (on_cell_right_click st cell).cell_states)
  ∧ (∀ (st : SchedState) (cellUnder : Option (Nat × Nat)),
      validKeys st.cell_states →
      (∀ c, st.start_cell = some c → c.1 < 7 ∧ c.2 < 48) →
      (∀ c, cellUnder = some c → c.1 < 7 ∧ c.2 < 48) →
      validKeys (on_drag st cellUnder).cell_states)
  ∧ (∀ (m : CellMap) (a c : Nat × Nat) (mode : Bool), validKeys m →
      a.1 < 7 → a.2 < 48 → c.1 < 7 → c.2 < 48 →
      validKeys (update_selection m a c mode)) := by
  refine ⟨validKeys_create_time_grid, ?_, ?_, ?_, ?_, ?_⟩
  · intro m d s v hm hd hs
    exact validKeys_set hm hd hs v
  · intro st cell hm h1 h2
    exact validKeys_set hm h1 h2 _
  · intro st cell hm h1 h2
    exact validKeys_set hm h1 h2 false
  · intro st cellUnder hm hstart hunder
    cases hdrag : st.dragging with
    | false =>
      simp only [on_drag, hdrag, Bool.not_false, if_true]
      exact hm
    | true =>
      cases hstartc : st.start_cell with
      | none =>
        simp only [on_drag, hdrag, Bool.not_true, if_false, hstartc]
        exact hm
      | some anchor =>
        cases cellUnder with
        | none =>
          simp only [on_drag, hdrag, Bool.not_true, if_false, hstartc]
          exact hm
        | some current =>
          by_cases hlast : st.last_cell = some current
          · simp only [on_drag, hdrag, Bool.not_true, if_false, hstartc,
              hlast, if_true]
            exact hm
          · simp only [on_drag, hdrag, Bool.not_true, if_false, hstartc,
              if_neg hlast]
            obtain ⟨ha1, ha2⟩ := hstart anchor hstartc
            obtain ⟨hc1, hc2⟩ := hunder current rfl
            exact validKeys_update_selection hm ha1 ha2 hc1 hc2 _
  · intro m a c mode hm ha1 ha2 hc1 hc2
    exact validKeys_update_selection hm ha1 ha2 hc1 hc2 mode

/-- C9 (witness): the invariant holds after a concrete write to the freshly
initialized grid. -/
theorem C9_witness : validKeys (set_cell_state create_time_grid 2 3 true) :=
  C9_cell_states_keys_valid.2.1 create_time_grid 2 3 true
    C9_cell_states_keys_valid.1 (by decide) (by decide)
